import Mathlib

/-!
# Verification of the micrograd scalar autodiff core

Shallow embedding of the `Value` class from `src/neurons_and_mlp.ipynb`.

Modelling choices:
* Python objects with identity become entries of an arena (`Graph := List Node`);
  a node reference is its index, and the identity-keyed Python `set`s
  (`_prev`, `visited`) become deduplicated index lists / index membership.
* `float` data and gradients are modelled as exact rationals `ℚ`; the claims
  under study are structural and algebraic, not about rounding.
* `math.exp` is transcendental, hence not a `ℚ → ℚ` function of the code;
  the two operations that use it (`exp`, `tanh`) take the function as an
  explicit parameter `fexp`, and theorems quantify over it.
* Each `_backward` closure stores captured data in the inductive `BRule`
  attached to the node it was assigned to (`out`); invoking it reads the
  current `grad`/`data` fields exactly where the Python closure does
  (`tanh` captures the value `t` at construction time, `exp` and `mul`
  re-read `data` at call time).
* `__pow__` accepts int/float exponents in Python; the embedding restricts
  numeric exponents to `ℤ` (the only exponents the repository uses are the
  integers 2 and -1), since `ℚ` has no general real power.
-/

namespace Micrograd

/-- Captured data of a `_backward` closure, one constructor per closure the
source creates.  `a`, `b` are the indices of the captured operand objects;
the closure is always stored on the freshly built `out` node, whose own
`grad`/`data` it reads at call time. -/
inductive BRule where
  | leaf
  | addVV (a b : ℕ)
  | addVC (a : ℕ)
  | mulVV (a b : ℕ)
  | mulVC (a : ℕ) (k : ℚ)
  | powVC (a : ℕ) (p : ℤ)
  | expV (a : ℕ)
  | tanhV (a : ℕ) (t : ℚ)
deriving Repr, DecidableEq

/-- One `Value` object: `data`, `grad`, the `_backward` closure, the
`_prev` set (deduplicated child indices), `_op` and `label`. -/
structure Node where
  data : ℚ
  grad : ℚ
  brule : BRule
  prev : List ℕ
  op : String
  label : String
deriving Repr, DecidableEq

/-- The heap of `Value` objects; a node reference is an index into it. -/
abbrev Graph := List Node

def defaultNode : Node := ⟨0, 0, .leaf, [], "", ""⟩

def nthNode (g : Graph) (i : ℕ) : Node := g.getD i defaultNode

def dataOf (g : Graph) (i : ℕ) : ℚ := (nthNode g i).data

def gradOf (g : Graph) (i : ℕ) : ℚ := (nthNode g i).grad

def prevOf (g : Graph) (i : ℕ) : List ℕ := (nthNode g i).prev

/-- Assignment `node.grad = v`. -/
def setGrad (g : Graph) (i : ℕ) (v : ℚ) : Graph :=
  g.set i { nthNode g i with grad := v }

/-- Accumulation `node.grad += d`. -/
def addGrad (g : Graph) (i : ℕ) (d : ℚ) : Graph :=
  setGrad g i (gradOf g i + d)

/-- Append a freshly constructed node, returning its reference. -/
def pushNode (g : Graph) (n : Node) : Graph × ℕ := (g ++ [n], g.length)

/-- Constructor call `Value(data, label=...)` introducing a leaf. -/
def Value.ofData (g : Graph) (d : ℚ) (label : String) : Graph × ℕ :=
  pushNode g ⟨d, 0, .leaf, [], "", label⟩

/-- A binary operand: `isinstance(other, Value)` dispatch becomes a sum type. -/
inductive PyArg where
  | node (i : ℕ)
  | const (k : ℚ)
deriving Repr, DecidableEq

/-- Method `Value.__add__`: both `isinstance` branches of the source. -/
def Value.add (g : Graph) (a : ℕ) (other : PyArg) : Graph × ℕ :=
  match other with
  | .node b =>
      pushNode g ⟨dataOf g a + dataOf g b, 0, .addVV a b, [a, b].dedup, "+", ""⟩
  | .const k =>
      pushNode g ⟨dataOf g a + k, 0, .addVC a, [a].dedup, "+", ""⟩

/-- Method `Value.__radd__(self, other): return self + other`. -/
def Value.radd (g : Graph) (k : ℚ) (a : ℕ) : Graph × ℕ :=
  Value.add g a (.const k)

/-- Method `Value.__mul__`: both `isinstance` branches of the source. -/
def Value.mul (g : Graph) (a : ℕ) (other : PyArg) : Graph × ℕ :=
  match other with
  | .node b =>
      pushNode g ⟨dataOf g a * dataOf g b, 0, .mulVV a b, [a, b].dedup, "*", ""⟩
  | .const k =>
      pushNode g ⟨dataOf g a * k, 0, .mulVC a k, [a].dedup, "*", ""⟩

/-- Method `Value.__rmul__(self, other): return self * other`. -/
def Value.rmul (g : Graph) (k : ℚ) (a : ℕ) : Graph × ℕ :=
  Value.mul g a (.const k)

/-- Method `Value.__neg__(self): return self * -1`. -/
def Value.neg (g : Graph) (a : ℕ) : Graph × ℕ :=
  Value.mul g a (.const (-1))

/-- Method `Value.__sub__(self, other): return self + (-other)`.  When `other` is a
`Value`, `-other` builds a node via `__neg__`; when it is a plain number,
`-other` is just the negated number. -/
def Value.sub (g : Graph) (a : ℕ) (other : PyArg) : Graph × ℕ :=
  match other with
  | .node b =>
      let p := Value.neg g b
      Value.add p.1 a (.node p.2)
  | .const k =>
      Value.add g a (.const (-k))

/-- The exponent argument of `__pow__`: a `Value` or a numeric constant. -/
inductive PowArg where
  | node (i : ℕ)
  | const (p : ℤ)
deriving Repr, DecidableEq

/-- The body of `Value.__pow__` after the `isinstance` assertion passed. -/
def Value.powConst (g : Graph) (a : ℕ) (p : ℤ) : Graph × ℕ :=
  pushNode g ⟨dataOf g a ^ p, 0, .powVC a p, [a].dedup, "**" ++ toString p, ""⟩

/-- Method `Value.__pow__`: `assert isinstance(other, (int, float))` fails before
any node is constructed; otherwise the node is built. -/
def Value.pow (g : Graph) (a : ℕ) (other : PowArg) : Except String (Graph × ℕ) :=
  match other with
  | .node _ => .error "only supporting int/float powers for now"
  | .const p => .ok (Value.powConst g a p)

/-- Method `Value.__truediv__(self, other): return self * (other ** -1)`.  For a
`Value` operand `other ** -1` builds a power node (the integer -1 passes the
assertion); for a plain number it is ordinary numeric reciprocal. -/
def Value.div (g : Graph) (a : ℕ) (other : PyArg) : Graph × ℕ :=
  match other with
  | .node b =>
      let p := Value.powConst g b (-1)
      Value.mul p.1 a (.node p.2)
  | .const k =>
      Value.mul g a (.const k⁻¹)

/-- Method `Value.exp`. -/
def Value.exp (fexp : ℚ → ℚ) (g : Graph) (a : ℕ) : Graph × ℕ :=
  pushNode g ⟨fexp (dataOf g a), 0, .expV a, [a].dedup, "exp", ""⟩

/-- Method `Value.tanh`: the value `t = (exp(2x) - 1)/(exp(2x) + 1)` is captured by the closure. -/
def Value.tanh (fexp : ℚ → ℚ) (g : Graph) (a : ℕ) : Graph × ℕ :=
  let x := dataOf g a
  let t := (fexp (2 * x) - 1) / (fexp (2 * x) + 1)
  pushNode g ⟨t, 0, .tanhV a t, [a].dedup, "tanh", ""⟩

/-- Invoke `node._backward()` for the node stored at index `i`.  The updates
run sequentially, each reading the then-current fields, exactly as the
Python closures do. -/
def Value.stepBackward (g : Graph) (i : ℕ) : Graph :=
  match (nthNode g i).brule with
  | .leaf => g
  | .addVV a b =>
      let g1 := addGrad g a (1 * gradOf g i)
      addGrad g1 b (1 * gradOf g1 i)
  | .addVC a => addGrad g a (1 * gradOf g i)
  | .mulVV a b =>
      let g1 := addGrad g a (dataOf g b * gradOf g i)
      addGrad g1 b (dataOf g1 a * gradOf g1 i)
  | .mulVC a k => addGrad g a (k * gradOf g i)
  | .powVC a p => addGrad g a ((p * dataOf g a ^ (p - 1)) * gradOf g i)
  | .expV a => addGrad g a (dataOf g i * gradOf g i)
  | .tanhV a t => addGrad g a ((1 - t ^ 2) * gradOf g i)

/-- The `visited` set and `topo` list of `Value.backward`. -/
structure TState where
  visited : List ℕ
  topo : List ℕ
deriving Repr, DecidableEq

/-- Function `build_topo` of the source: depth-first post-order with an
identity-keyed visited set.  The Python recursion is unbounded; the
embedding carries a fuel argument, and because every operand of a node has
a strictly smaller arena index, fuel `n + 1` is enough to run the
recursion from node `n` to completion (proved below). -/
def buildTopoF (g : Graph) : ℕ → ℕ → TState → TState
  | 0, _, s => s
  | fuel + 1, n, s =>
      if n ∈ s.visited then s
      else
        let s1 : TState := ⟨n :: s.visited, s.topo⟩
        let s2 := (prevOf g n).foldl (fun st c => buildTopoF g fuel c st) s1
        ⟨s2.visited, s2.topo ++ [n]⟩

/-- The `topo` list that `Value.backward(root)` computes. -/
def Value.buildTopo (g : Graph) (root : ℕ) : List ℕ :=
  (buildTopoF g (root + 1) root ⟨[], []⟩).topo

/-- Method `Value.backward`: build the topological order, seed `self.grad = 1.0`,
then invoke each `_backward` in reverse order. -/
def Value.backward (g : Graph) (root : ℕ) : Graph :=
  let topo := Value.buildTopo g root
  let g1 := setGrad g root 1
  topo.reverse.foldl Value.stepBackward g1

/-- Well-formed arena: every recorded operand of a node has a strictly
smaller index (true of every graph the operations can build, since operands
exist before the node that consumes them); indices outside the arena read
as operand-free default nodes, so they are unconstrained automatically. -/
def WF (g : Graph) : Prop := ∀ i, ∀ c ∈ prevOf g i, c < i

/-- Python evaluation of `k <op> v` for a plain number `k` and a `Value` `v`:
`float.__op__` returns `NotImplemented` on a `Value` argument, so Python
falls back to the reflected method of the `Value` class when it defines one
(only `__radd__` and `__rmul__` exist) and raises `TypeError` otherwise
(the class defines neither `__rsub__` nor `__rtruediv__`). -/
inductive PyBin where
  | add
  | sub
  | mul
  | div
deriving Repr, DecidableEq

/-- The reflected method of the `Value` class for each binary operator,
`none` when the class does not define it. -/
def reflectedMethod : PyBin → Option (Graph → ℚ → ℕ → Graph × ℕ)
  | .add => some Value.radd
  | .mul => some Value.rmul
  | .sub => none
  | .div => none

/-- Dispatch of `k <op> v` for plain-number `k` and `Value` `v`. -/
def pyConstOpValue (op : PyBin) (k : ℚ) (g : Graph) (a : ℕ) :
    Except String (Graph × ℕ) :=
  match reflectedMethod op with
  | some f => .ok (f g k a)
  | none => .error "TypeError: unsupported operand types"

/-- The diamond-free chain `r = v + u`, `v = w + t` over leaves `w, t, u`,
used to exhibit over-accumulation below depth one.  Indices: `w = 0`,
`t = 1`, `u = 2`, `v = 3`, `r = 4`. -/
def chainGraph : Graph :=
  [⟨1, 0, .leaf, [], "", "w"⟩, ⟨1, 0, .leaf, [], "", "t"⟩, ⟨1, 0, .leaf, [], "", "u"⟩,
   ⟨2, 0, .addVV 0 1, [0, 1], "+", ""⟩, ⟨3, 0, .addVV 3 2, [3, 2], "+", ""⟩]

/-- A forward operation applied to arena `g` returned a freshly appended
node: the old nodes are bytewise unchanged, the returned reference is past
the old arena, and the new node has gradient `0` (no backward logic ran). -/
def FreshPush (g : Graph) (r : Graph × ℕ) : Prop :=
  r.1.take g.length = g ∧ g.length ≤ r.2 ∧ r.2 + 1 = r.1.length ∧ gradOf r.1 r.2 = 0

/-- Every element of the list has its recorded operands strictly earlier in
the list: the topological-order contract of `build_topo`. -/
def Closed (g : Graph) (l : List ℕ) : Prop :=
  ∀ l1 v l2, l = l1 ++ v :: l2 → ∀ c ∈ prevOf g v, c ∈ l1

/-- Invariant of the traversal state: the emitted order has no duplicates,
is contained in the visited set, and is operand-closed. -/
def TInv (g : Graph) (s : TState) : Prop :=
  s.topo.Nodup ∧ (∀ x ∈ s.topo, x ∈ s.visited) ∧ Closed g s.topo

/-- Contract of one `build_topo(n)` call from state `s` to state `t`: the
order grows by appending, the visited set grows, `n` ends up emitted, the
set of visited-but-unemitted nodes (the recursion stack) is untouched, and
the invariant is preserved. -/
def BTSpec (g : Graph) (n : ℕ) (s t : TState) : Prop :=
  (∃ d, t.topo = s.topo ++ d) ∧
  (∀ x ∈ s.visited, x ∈ t.visited) ∧
  n ∈ t.topo ∧
  (∀ x, (x ∈ t.visited ∧ x ∉ t.topo) ↔ (x ∈ s.visited ∧ x ∉ s.topo)) ∧
  TInv g t

end Micrograd

namespace Micrograd

/-! ### Basic arena lemmas -/

theorem nthNode_push (g : Graph) (n : Node) : nthNode (g ++ [n]) g.length = n := by
  simp [nthNode, List.getD_append_right]

theorem nthNode_append_left (g : Graph) (l : List Node) (i : ℕ) (h : i < g.length) :
    nthNode (g ++ l) i = nthNode g i := by
  simp [nthNode, List.getD, List.getElem?_append, h]

theorem take_push (g : Graph) (l : List Node) : (g ++ l).take g.length = g :=
  List.take_left g l

theorem setGrad_of_oob (g : Graph) (i : ℕ) (v : ℚ) (h : g.length ≤ i) :
    setGrad g i v = g :=
  List.set_eq_of_length_le h

theorem nthNode_setGrad_self (g : Graph) (i : ℕ) (v : ℚ) (h : i < g.length) :
    nthNode (setGrad g i v) i = { nthNode g i with grad := v } := by
  simp [setGrad, nthNode, List.getD, List.getElem?_set_self, h]

theorem nthNode_setGrad_ne (g : Graph) (i j : ℕ) (v : ℚ) (h : i ≠ j) :
    nthNode (setGrad g i v) j = nthNode g j := by
  simp [setGrad, nthNode, List.getD, List.getElem?_set_ne h]

theorem dedup_pair_self (a : ℕ) : [a, a].dedup = [a] := by
  rw [List.dedup_cons_of_mem (by simp [List.mem_dedup])]
  rfl

theorem dedup_single (a : ℕ) : [a].dedup = [a] := by
  rw [List.dedup_cons_of_not_mem (by simp)]
  rfl

theorem dedup_pair_ne (a b : ℕ) (h : a ≠ b) : [a, b].dedup = [a, b] := by
  rw [List.dedup_cons_of_not_mem (by simp [List.mem_dedup, h]), dedup_single]

theorem nthNode_push2 (g : Graph) (n1 n2 : Node) :
    nthNode (g ++ [n1, n2]) (g.length + 1) = n2 := by
  rw [show g ++ [n1, n2] = (g ++ [n1]) ++ [n2] by simp,
    show g.length + 1 = (g ++ [n1]).length by simp, nthNode_push]

theorem brule_setGrad (g : Graph) (i j : ℕ) (v : ℚ) :
    (nthNode (setGrad g i v) j).brule = (nthNode g j).brule := by
  rcases eq_or_ne i j with rfl | h
  · by_cases hlt : i < g.length
    · rw [nthNode_setGrad_self g i v hlt]
    · rw [setGrad_of_oob g i v (le_of_not_lt hlt)]
  · rw [nthNode_setGrad_ne g i j v h]

end Micrograd

namespace Micrograd

/-! ### Claim C1: shared-operand gradient accumulation -/

/-- C1: for `y = x * x` built from the single node `x` (the same object as
both operands) with `x.grad` zero beforehand, `Value.backward` on `y`
leaves `x.grad` equal to `2 * x.data`, and `x.data` itself is unchanged:
the `+=` accumulation sums the contribution of both consuming edges. -/
theorem shared_operand_backward (d : ℚ) :
    gradOf (Value.backward (Value.mul [⟨d, 0, .leaf, [], "", "x"⟩] 0 (.node 0)).1 1) 0 = 2 * d ∧
    dataOf (Value.backward (Value.mul [⟨d, 0, .leaf, [], "", "x"⟩] 0 (.node 0)).1 1) 0 = d := by
  constructor <;>
    norm_num [Value.backward, Value.buildTopo, buildTopoF, Value.stepBackward, Value.mul,
      pushNode, setGrad, addGrad, gradOf, dataOf, prevOf, nthNode, defaultNode,
      List.dedup_cons_of_mem, List.dedup_cons_of_not_mem] <;>
    ring

/-! ### Claim C3: a second backward pass without reset does not double
every gradient -/

/-- C3 counterexample: on the chain `r = v + u`, `v = w + t`, one backward
pass from `r` gives `w.grad = 1`, but a second pass without reset leaves
`w.grad = 3`, not `2 * 1`: the node at depth two more than doubles. -/
theorem backward_twice_not_double :
    ¬ gradOf (Value.backward (Value.backward chainGraph 4) 4) 0 =
        2 * gradOf (Value.backward chainGraph 4) 0 := by
  norm_num [chainGraph, Value.backward, Value.buildTopo, buildTopoF, Value.stepBackward,
    pushNode, setGrad, addGrad, gradOf, dataOf, prevOf, nthNode, defaultNode]

/-- C3 amended: accumulation across un-reset passes is observable, but the
exact doubling only holds where every consumer of the node is the root
itself.  For `y = x * x`: two passes leave `x.grad = 4 * x.data`, which is
exactly twice the single-pass `2 * x.data`, while the root is re-seeded by
the `grad = 1.0` assignment to `1` in both scenarios (not doubled). -/
theorem backward_twice_depth_one (d : ℚ) :
    gradOf (Value.backward
        (Value.backward (Value.mul [⟨d, 0, .leaf, [], "", "x"⟩] 0 (.node 0)).1 1) 1) 0 =
      2 * gradOf (Value.backward (Value.mul [⟨d, 0, .leaf, [], "", "x"⟩] 0 (.node 0)).1 1) 0 ∧
    gradOf (Value.backward
        (Value.backward (Value.mul [⟨d, 0, .leaf, [], "", "x"⟩] 0 (.node 0)).1 1) 1) 1 = 1 ∧
    gradOf (Value.backward (Value.mul [⟨d, 0, .leaf, [], "", "x"⟩] 0 (.node 0)).1 1) 1 = 1 := by
  refine ⟨?_, ?_, ?_⟩ <;>
    norm_num [Value.backward, Value.buildTopo, buildTopoF, Value.stepBackward, Value.mul,
      pushNode, setGrad, addGrad, gradOf, dataOf, prevOf, nthNode, defaultNode,
      List.dedup_cons_of_mem, List.dedup_cons_of_not_mem] <;>
    ring

/-! ### Claim C4: a non-constant exponent is rejected before construction -/

/-- C4: `__pow__` with a `Value` exponent fails with the assertion error and
returns no graph at all: the failure happens before any node is created or
mutated, so the graph of the caller is exactly as it was. -/
theorem pow_node_exponent_rejected (g : Graph) (a b : ℕ) :
    Value.pow g a (.node b) = .error "only supporting int/float powers for now" := rfl

/-! ### Claim C5: what `_prev` records -/

/-- C5 counterexample: the claim says a binary operation applied to two node
inputs records exactly 2 operand references even when both inputs are the
same node; but `_prev = set(_children)` deduplicates by identity, so
`y = x * x` records the single reference `[0]`. -/
theorem shared_operand_recorded_once :
    prevOf (Value.mul [⟨(3 : ℚ), 0, .leaf, [], "", "x"⟩] 0 (.node 0)).1
        (Value.mul [⟨(3 : ℚ), 0, .leaf, [], "", "x"⟩] 0 (.node 0)).2 = [0] ∧
    ¬ (prevOf (Value.mul [⟨(3 : ℚ), 0, .leaf, [], "", "x"⟩] 0 (.node 0)).1
        (Value.mul [⟨(3 : ℚ), 0, .leaf, [], "", "x"⟩] 0 (.node 0)).2).length = 2 := by
  constructor <;>
    simp [Value.mul, pushNode, prevOf, nthNode, dataOf, defaultNode, dedup_pair_self]

/-- C5 amended: `_prev` is the identity-deduplicated set of the direct
inputs: empty for leaves, a singleton for unary and node-constant
operations, and for node-node addition and multiplication the dedup of the
input pair, which has two elements exactly when the inputs are distinct
objects and collapses to one when both inputs are the same node. -/
theorem operands_recording (fexp : ℚ → ℚ) (g : Graph) (a b : ℕ) (k : ℚ) (p : ℤ)
    (d : ℚ) (lab : String) :
    prevOf (Value.ofData g d lab).1 (Value.ofData g d lab).2 = [] ∧
    prevOf (Value.add g a (.node b)).1 (Value.add g a (.node b)).2 = [a, b].dedup ∧
    prevOf (Value.mul g a (.node b)).1 (Value.mul g a (.node b)).2 = [a, b].dedup ∧
    prevOf (Value.add g a (.const k)).1 (Value.add g a (.const k)).2 = [a] ∧
    prevOf (Value.mul g a (.const k)).1 (Value.mul g a (.const k)).2 = [a] ∧
    prevOf (Value.powConst g a p).1 (Value.powConst g a p).2 = [a] ∧
    prevOf (Value.exp fexp g a).1 (Value.exp fexp g a).2 = [a] ∧
    prevOf (Value.tanh fexp g a).1 (Value.tanh fexp g a).2 = [a] ∧
    [a, b].dedup = (if a = b then [a] else [a, b]) := by
  refine ⟨?_, ?_, ?_, ?_, ?_, ?_, ?_, ?_, ?_⟩ <;>
    first
      | simp [Value.ofData, Value.add, Value.mul, Value.powConst, Value.exp, Value.tanh,
          pushNode, prevOf, nthNode_push, dedup_single]
      | (rcases eq_or_ne a b with rfl | h
         · simp [dedup_pair_self]
         · simp [dedup_pair_ne a b h, h])

end Micrograd

namespace Micrograd

/-! ### Claim C6: forward operations are pure builders -/

/-- C6: every forward operation (`add`, `mul`, `pow` by constant, `exp`,
`tanh`, and the derived `neg`, `sub`, `div`, with node or plain-number
second operand throughout) returns a new node, leaves every pre-existing
node — value, gradient, operands and backward rule — unchanged, and runs no
backward logic at construction time (the fresh node has gradient `0`). -/
theorem forward_ops_frame (fexp : ℚ → ℚ) (g : Graph) (a : ℕ) (other : PyArg) (p : ℤ)
    (d k : ℚ) (lab : String) :
    FreshPush g (Value.ofData g d lab) ∧
    FreshPush g (Value.add g a other) ∧
    FreshPush g (Value.mul g a other) ∧
    FreshPush g (Value.powConst g a p) ∧
    FreshPush g (Value.exp fexp g a) ∧
    FreshPush g (Value.tanh fexp g a) ∧
    FreshPush g (Value.neg g a) ∧
    FreshPush g (Value.sub g a other) ∧
    FreshPush g (Value.div g a other) ∧
    FreshPush g (Value.radd g k a) ∧
    FreshPush g (Value.rmul g k a) := by
  refine ⟨?_, ?_, ?_, ?_, ?_, ?_, ?_, ?_, ?_, ?_, ?_⟩ <;>
    cases other <;>
    simp [FreshPush, Value.ofData, Value.add, Value.mul, Value.powConst, Value.exp,
      Value.tanh, Value.neg, Value.sub, Value.div, Value.radd, Value.rmul, pushNode,
      gradOf, nthNode_push, nthNode_push2, take_push, List.append_assoc]

/-! ### Claim C7: reflected constant addition and multiplication -/

/-- C7: evaluating `k + a` for a plain number `k` dispatches to
`Value.__radd__`, whose body is exactly `self + other`, so `k + a` builds
the very same node as `a + k`; likewise `k * a` and `a * k`.  Same value,
same operands, same backward rule, because the results are equal as
graph extensions. -/
theorem reflected_add_mul_commute (k : ℚ) (g : Graph) (a : ℕ) :
    pyConstOpValue .add k g a = .ok (Value.add g a (.const k)) ∧
    pyConstOpValue .mul k g a = .ok (Value.mul g a (.const k)) ∧
    Value.radd g k a = Value.add g a (.const k) ∧
    Value.rmul g k a = Value.mul g a (.const k) :=
  ⟨rfl, rfl, rfl, rfl⟩

/-! ### Claim C8: derived operations are compositions of primitives -/

/-- C8: `__neg__` is `multiply(a, -1)`, `__sub__` is `add(a, neg(b))`
(`add(a, -k)` for a plain number), `__truediv__` is
`multiply(a, power(b, -1))`; being the same constructions, their forward
values and backward rules are those of the composed primitives, and in
particular the forward values are `-a`, `a - b` and `a * b⁻¹`. -/
theorem derived_ops_compose (g : Graph) (a b : ℕ) (k : ℚ)
    (ha : a < g.length) :
    Value.neg g a = Value.mul g a (.const (-1)) ∧
    Value.sub g a (.node b) = Value.add (Value.neg g b).1 a (.node (Value.neg g b).2) ∧
    Value.sub g a (.const k) = Value.add g a (.const (-k)) ∧
    Value.div g a (.node b) =
      Value.mul (Value.powConst g b (-1)).1 a (.node (Value.powConst g b (-1)).2) ∧
    Value.pow g b (.const (-1)) = Except.ok (Value.powConst g b (-1)) ∧
    dataOf (Value.neg g a).1 (Value.neg g a).2 = -dataOf g a ∧
    dataOf (Value.sub g a (.node b)).1 (Value.sub g a (.node b)).2 =
      dataOf g a - dataOf g b ∧
    dataOf (Value.div g a (.node b)).1 (Value.div g a (.node b)).2 =
      dataOf g a * (dataOf g b)⁻¹ := by
  refine ⟨rfl, rfl, rfl, rfl, rfl, ?_, ?_, ?_⟩
  · simp [Value.neg, Value.mul, pushNode, dataOf, nthNode_push]
  · simp only [Value.sub, Value.add, Value.neg, Value.mul, pushNode, dataOf,
      nthNode_push, nthNode_append_left _ _ _ ha]
    ring
  · simp only [Value.div, Value.mul, Value.powConst, pushNode, dataOf,
      nthNode_push, nthNode_append_left _ _ _ ha]
    norm_num [zpow_neg]

/-- Witness for C8 at the two-leaf arena `[a = 5, b = 7]`. -/
theorem derived_ops_compose_witness :
    dataOf (Value.div [⟨5, 0, .leaf, [], "", "a"⟩, ⟨7, 0, .leaf, [], "", "b"⟩] 0 (.node 1)).1
        (Value.div [⟨5, 0, .leaf, [], "", "a"⟩, ⟨7, 0, .leaf, [], "", "b"⟩] 0 (.node 1)).2 =
      dataOf [⟨5, 0, .leaf, [], "", "a"⟩, ⟨7, 0, .leaf, [], "", "b"⟩] 0 *
        (dataOf [⟨5, 0, .leaf, [], "", "a"⟩, ⟨7, 0, .leaf, [], "", "b"⟩] 1)⁻¹ :=
  (derived_ops_compose [⟨5, 0, .leaf, [], "", "a"⟩, ⟨7, 0, .leaf, [], "", "b"⟩] 0 1 3
    (by norm_num)).2.2.2.2.2.2.2

/-! ### Claim C9: backward from a leaf -/

/-- C9: running `Value.backward` on a node with no operands (whose
`_backward` is the no-op of the constructor) only assigns the gradient of that node
to `1.0`; the resulting arena is exactly `setGrad g root 1`, so no other
other node changes in gradient or value. -/
theorem backward_on_leaf (g : Graph) (root : ℕ)
    (hp : prevOf g root = []) (hb : (nthNode g root).brule = .leaf) :
    Value.backward g root = setGrad g root 1 := by
  have hbrule : (nthNode (setGrad g root 1) root).brule = BRule.leaf := by
    rw [brule_setGrad, hb]
  simp [Value.backward, Value.buildTopo, buildTopoF, hp, Value.stepBackward, hbrule]

/-- Witness for C9: a one-leaf arena whose gradient starts at `7`. -/
theorem backward_on_leaf_witness :
    Value.backward [⟨5, 7, .leaf, [], "", "p"⟩] 0 =
      setGrad [⟨5, 7, .leaf, [], "", "p"⟩] 0 1 :=
  backward_on_leaf [⟨5, 7, .leaf, [], "", "p"⟩] 0 rfl rfl

/-! ### Claim C10: no reflected subtraction or division -/

/-- C10: the `Value` class defines `__radd__` and `__rmul__` but neither
`__rsub__` nor `__rtruediv__`, so for a plain number `k`, `k - a` and
`k / a` raise `TypeError` without constructing any node, while `k + a` and
`k * a` succeed. -/
theorem no_reflected_sub_div (k : ℚ) (g : Graph) (a : ℕ) :
    reflectedMethod .sub = none ∧
    reflectedMethod .div = none ∧
    pyConstOpValue .sub k g a = .error "TypeError: unsupported operand types" ∧
    pyConstOpValue .div k g a = .error "TypeError: unsupported operand types" ∧
    pyConstOpValue .add k g a = .ok (Value.radd g k a) ∧
    pyConstOpValue .mul k g a = .ok (Value.rmul g k a) :=
  ⟨rfl, rfl, rfl, rfl, rfl, rfl⟩

end Micrograd

namespace Micrograd

/-! ### Claim C2: the topological order built by `backward` -/

theorem closed_nil (g : Graph) : Closed g [] := by
  intro l1 v l2 heq
  exact absurd heq.symm (by simp)

theorem closed_concat (g : Graph) (l : List ℕ) (n : ℕ)
    (h : Closed g l) (hc : ∀ c ∈ prevOf g n, c ∈ l) : Closed g (l ++ [n]) := by
  intro l1 v l2 heq c hcv
  rcases List.eq_nil_or_concat l2 with rfl | ⟨l2x, b, rfl⟩
  · have hlen : l.length = l1.length := by
      have h3 := congrArg List.length heq
      simp at h3
      omega
    obtain ⟨h1, h2⟩ := List.append_inj heq hlen
    have hnv : n = v := by simpa using h2
    subst hnv
    subst h1
    exact hc c hcv
  · have heq2 : l ++ [n] = (l1 ++ v :: l2x) ++ [b] := by simpa using heq
    have hlen : l.length = (l1 ++ v :: l2x).length := by
      have h3 := congrArg List.length heq2
      simp at h3
      simp
      omega
    obtain ⟨h1, _⟩ := List.append_inj heq2 hlen
    exact h l1 v l2x h1 c hcv

theorem nodup_concat (l : List ℕ) (n : ℕ) (h1 : l.Nodup) (h2 : n ∉ l) :
    (l ++ [n]).Nodup := by
  simp [List.nodup_append, h1, h2]

/-- Contract of the fold over a list of children, each strictly below
`bound`, starting from a state whose recursion stack is entirely at or
above `bound`. -/
theorem buildTopo_foldl_spec (g : Graph) (fuel : ℕ)
    (IH : ∀ m s, m < fuel → (∀ x ∈ s.visited, x ∉ s.topo → m < x) → TInv g s →
      BTSpec g m s (buildTopoF g fuel m s)) :
    ∀ (cs : List ℕ) (bound : ℕ) (s : TState), bound ≤ fuel →
      (∀ c ∈ cs, c < bound) →
      (∀ x ∈ s.visited, x ∉ s.topo → bound ≤ x) →
      TInv g s →
      (∃ d, (cs.foldl (fun st c => buildTopoF g fuel c st) s).topo = s.topo ++ d) ∧
      (∀ x ∈ s.visited, x ∈ (cs.foldl (fun st c => buildTopoF g fuel c st) s).visited) ∧
      (∀ c ∈ cs, c ∈ (cs.foldl (fun st c => buildTopoF g fuel c st) s).topo) ∧
      (∀ x, (x ∈ (cs.foldl (fun st c => buildTopoF g fuel c st) s).visited ∧
          x ∉ (cs.foldl (fun st c => buildTopoF g fuel c st) s).topo) ↔
        (x ∈ s.visited ∧ x ∉ s.topo)) ∧
      TInv g (cs.foldl (fun st c => buildTopoF g fuel c st) s) := by
  intro cs
  induction cs with
  | nil =>
      intro bound s _ _ _ hinv
      exact ⟨⟨[], by simp⟩, fun x hx => hx, by simp, fun x => Iff.rfl, hinv⟩
  | cons c cs ih =>
      intro bound s hbf hcs hgrey hinv
      have hc : c < bound := hcs c (by simp)
      have h1 := IH c s (lt_of_lt_of_le hc hbf)
        (fun x hx hnx => lt_of_lt_of_le hc (hgrey x hx hnx)) hinv
      obtain ⟨⟨d1, hd1⟩, hmono1, hcin1, hiff1, hinv1⟩ := h1
      have hgrey1 : ∀ x ∈ (buildTopoF g fuel c s).visited,
          x ∉ (buildTopoF g fuel c s).topo → bound ≤ x := by
        intro x hx hnx
        obtain ⟨hxv, hxt⟩ := (hiff1 x).mp ⟨hx, hnx⟩
        exact hgrey x hxv hxt
      have h2 := ih bound (buildTopoF g fuel c s) hbf
        (fun e he => hcs e (by simp [he])) hgrey1 hinv1
      obtain ⟨⟨d2, hd2⟩, hmono2, hcsin2, hiff2, hinv2⟩ := h2
      simp only [List.foldl_cons]
      refine ⟨⟨d1 ++ d2, by rw [hd2, hd1, List.append_assoc]⟩,
        fun x hx => hmono2 x (hmono1 x hx), ?_, ?_, hinv2⟩
      · intro e he
        rcases List.mem_cons.mp he with rfl | he2
        · rw [hd2]
          exact List.mem_append_left _ hcin1
        · exact hcsin2 e he2
      · intro x
        exact (hiff2 x).trans (hiff1 x)

/-- Contract of a single `build_topo(n)` call with fuel above `n`, for a
well-formed arena: the fuel never runs out, so the embedded recursion
behaves as the unbounded Python recursion. -/
theorem buildTopoF_spec (g : Graph) (hWF : WF g) :
    ∀ fuel n s, n < fuel →
      (∀ x ∈ s.visited, x ∉ s.topo → n < x) → TInv g s →
      BTSpec g n s (buildTopoF g fuel n s) := by
  intro fuel
  induction fuel with
  | zero => intro n s hn; omega
  | succ f ihf =>
      intro n s hn hgrey hinv
      by_cases hv : n ∈ s.visited
      · have hnt : n ∈ s.topo := by
          by_contra hnot
          exact absurd (hgrey n hv hnot) (lt_irrefl n)
        refine ⟨⟨[], by simp [buildTopoF, hv]⟩, ?_, ?_, ?_, ?_⟩ <;>
          simp [buildTopoF, hv, hnt, hinv]
      · have hnt : n ∉ s.topo := fun h => hv (hinv.2.1 n h)
        have hs1grey : ∀ x ∈ (n :: s.visited), x ∉ s.topo → n ≤ x := by
          intro x hx hnx
          rcases List.mem_cons.mp hx with rfl | hx2
          · exact le_refl x
          · exact le_of_lt (hgrey x hx2 hnx)
        have hinv1 : TInv g ⟨n :: s.visited, s.topo⟩ :=
          ⟨hinv.1, fun x hx => List.mem_cons_of_mem _ (hinv.2.1 x hx), hinv.2.2⟩
        have hfold := buildTopo_foldl_spec g f ihf (prevOf g n) n
          ⟨n :: s.visited, s.topo⟩ (by omega) (hWF n) hs1grey hinv1
        obtain ⟨⟨d, hd⟩, hmono, hchild, hiff, hinv2⟩ := hfold
        set t2 := (prevOf g n).foldl (fun st c => buildTopoF g f c st)
          ⟨n :: s.visited, s.topo⟩ with ht2
        have hng : n ∈ t2.visited ∧ n ∉ t2.topo :=
          (hiff n).mpr ⟨by simp, hnt⟩
        have hres : buildTopoF g (f + 1) n s = ⟨t2.visited, t2.topo ++ [n]⟩ := by
          simp only [buildTopoF, if_neg hv]
        rw [hres]
        refine ⟨⟨d ++ [n], by simp [hd]⟩, ?_, ?_, ?_, ?_, ?_, ?_⟩
        · intro x hx
          exact hmono x (List.mem_cons_of_mem _ hx)
        · simp
        · intro x
          constructor
          · rintro ⟨hxv, hxt⟩
            have hxt2 : x ∉ t2.topo := fun h => hxt (List.mem_append_left _ h)
            have hxn : x ≠ n := by
              rintro rfl
              exact hxt (by simp)
            obtain ⟨hxv1, hxt1⟩ := (hiff x).mp ⟨hxv, hxt2⟩
            rcases List.mem_cons.mp hxv1 with rfl | hxv2
            · exact absurd rfl hxn
            · exact ⟨hxv2, hxt1⟩
          · rintro ⟨hxv, hxt⟩
            have hxn : x ≠ n := by
              rintro rfl
              exact hv hxv
            obtain ⟨hxv2, hxt2⟩ := (hiff x).mpr ⟨List.mem_cons_of_mem _ hxv, hxt⟩
            refine ⟨hxv2, fun h => ?_⟩
            rcases List.mem_append.mp h with h2 | h2
            · exact hxt2 h2
            · exact hxn (by simpa using h2)
        · exact nodup_concat _ _ hinv2.1 hng.2
        · intro x hx
          rcases List.mem_append.mp hx with h2 | h2
          · exact hinv2.2.1 x h2
          · have hxn : x = n := by simpa using h2
            exact hxn ▸ hng.1
        · exact closed_concat g t2.topo n hinv2.2.2 hchild

/-- C2: for a well-formed (hence acyclic) arena, the ordering that
`Value.backward` builds via depth-first post-order with an identity-keyed
visited set contains each node at most once, and every recorded operand of
every emitted node appears strictly before that consumer in the order. -/
theorem topo_order_valid (g : Graph) (hWF : WF g) (root : ℕ) :
    (Value.buildTopo g root).Nodup ∧
    ∀ l1 v l2, Value.buildTopo g root = l1 ++ v :: l2 → ∀ c ∈ prevOf g v, c ∈ l1 := by
  have h := buildTopoF_spec g hWF (root + 1) root ⟨[], []⟩ (by omega)
    (by intro x hx; simp at hx) ⟨List.nodup_nil, by simp, closed_nil g⟩
  constructor
  · simpa [Value.buildTopo] using h.2.2.2.2.1
  · intro l1 v l2 heq c hc
    exact h.2.2.2.2.2.2 l1 v l2 (by simpa [Value.buildTopo] using heq) c hc

/-- Witness for C2 at the shared-operand arena `y = x * x`. -/
theorem topo_order_valid_witness :
    WF [⟨2, 0, .leaf, [], "", "x"⟩, ⟨4, 0, .mulVV 0 0, [0], "*", ""⟩] ∧
    (Value.buildTopo [⟨2, 0, .leaf, [], "", "x"⟩, ⟨4, 0, .mulVV 0 0, [0], "*", ""⟩] 1).Nodup := by
  have hwf : WF [⟨2, 0, .leaf, [], "", "x"⟩, ⟨4, 0, .mulVV 0 0, [0], "*", ""⟩] := by
    intro i c hc
    rcases i with _ | _ | i <;>
      simp [prevOf, nthNode, defaultNode, List.getD] at hc <;>
      omega
  exact ⟨hwf, (topo_order_valid _ hwf 1).1⟩

end Micrograd
